import Mathlib

/-!
Verification of the device declaration and structure serialization engine of
`golisp` (`device.go`): schema model, structure expansion with alignment and
padding, the byte codec, the JSON path codec, the validation engine and the
top-level write orchestration.

Conventions of the embedding:
* Go `uint32` field values are modelled as `Nat`; every place the code
  truncates (the `uint8(...)`/`uint16(...)`/`uint32(...)` casts before byte
  writes) the model takes the corresponding `% 256` remainders, so overflow
  behaviour is explicit.
* Byte buffers are `List Nat` (each entry a byte value).  Go indexes a slice
  and panics out of range; the model reads with `List.getD _ 0` and writes
  with `List.set` (a no-op out of range).  The theorems about the codec carry
  the in-bounds hypotheses under which both agree.
* The LISP interpreter collaborators (`Eval`, `Assoc`, `Nth`,
  `NumericValue`, `SymbolTableFrame`, the byte-write helpers
  `addUint8ToByteArray`/`addUint16ToByteArray`/`addUint32ToByteArray`) live
  outside the sources under study; they are modelled from the specification,
  marked `Modelled from the spec:` on their doc comments.
* A deferred validation expression together with its evaluation through the
  collaborator is modelled as a function from the evaluation environment to
  `Option` of the rule attachment it performs on the field definition
  (`none` models an evaluation error).
* Go's unbounded recursions (nested structure expansion through the global
  registry, the re-entrant `ExpandedField.Validate` call) are totalized with
  an explicit `fuel` parameter; on the executions the theorems talk about the
  fuel is never exhausted.
-/

namespace GolispDevice

/-- LISP data as used for JSON documents: nil, numbers, strings, association
lists (JSON objects) and element lists (JSON arrays). -/
inductive LData where
  | nil : LData
  | num : Nat → LData
  | str : String → LData
  | alist : List (String × LData) → LData
  | arr : List LData → LData

/-- Modelled from the spec: `NumericValue` of a number node is its value,
of any other node 0. -/
def NumericValue : LData → Nat
  | .num n => n
  | _ => 0

/-- Modelled from the spec: `Assoc` looks a key up in an association node and
yields the associated value (the `Cdr` of the found pair); a missing key or a
non-association node is a lookup failure (`none`). -/
def Assoc (key : String) : LData → Option LData
  | .alist ps => (ps.find? (fun p => p.fst = key)).map Prod.snd
  | _ => none

/-- Modelled from the spec: `Nth` selects the n-th element of a list node,
1-indexed (the caller passes `i+1` for external index `i`); out of range or
non-list nodes give nil. -/
def Nth : LData → Int → LData
  | .arr xs, n => if 1 ≤ n then xs.getD (n - 1).toNat .nil else .nil
  | _, _ => .nil

/-- Modelled from the spec: the evaluation environment of the expression
collaborator, a frame of name-to-numeric-value bindings (most recent
first). -/
abbrev Env := List (String × Nat)

/-- Modelled from the spec: `SymbolTableFrame.BindLocallyTo` adds a binding
to the frame; a newer binding for a name shadows an older one. -/
def BindLocallyTo (env : Env) (name : String) (value : Nat) : Env :=
  (name, value) :: env

/-- Look a name up in an environment (used by modelled deferred
expressions). -/
def lookupBinding (env : Env) (name : String) : Option Nat :=
  (env.find? (fun p => p.fst = name)).map Prod.snd

/-- An inclusive numeric range rule (`Range` in `device.go`). -/
structure Range where
  Lo : Nat
  Hi : Nat
deriving DecidableEq, Repr

/-- An enumerated value-set rule (`Values` in `device.go`). -/
structure Values where
  Vals : List Nat
deriving DecidableEq, Repr

/-- `Range.Validate`: inclusive at both ends. -/
def Range.Validate (self : Range) (value : Nat) : Bool :=
  decide (self.Lo ≤ value) && decide (value ≤ self.Hi)

/-- `Values.Validate`: membership in the declared list. -/
def Values.Validate (self : Values) (value : Nat) : Bool :=
  self.Vals.contains value

/-- The effect a deferred validation expression has when evaluated through
the expression collaborator: `none` is an evaluation error, `some (r, v)`
attaches `r` as the valid range and `v` as the valid value set of the field
definition under validation (`CurrentField` in the Go code). -/
abbrev DeferredCode := Env → Option (Option Range × Option Values)

/-- A JSON transform expression evaluated through the collaborator against
the current node and its parent node, producing the node to continue
with.  Modelled from the spec (`TransformJson`). -/
abbrev JsonTransform := LData → LData → LData

/-- `DeviceField` of `device.go`: one declared field.  `Size` is the size of
a single element in bytes, `RepeatCount` the number of elements. -/
structure DeviceField where
  Name : String
  TypeName : String
  Size : Nat
  RepeatCount : Nat
  IsConstant : Bool := false
  Constant : Nat := 0
  ValidRange : Option Range := none
  ValidValues : Option Values := none
  DeferredValidationCode : Option DeferredCode := none
  FromJsonTransform : Option JsonTransform := none

/-- `DeviceStructure` of `device.go`: the declared (unflattened) schema, an
ordered list of fields.  The `Parent` back pointer is not needed by any
operation under study and is omitted. -/
structure DeviceStructure where
  Name : String
  Fields : List DeviceField
  Size : Nat := 0

/-- `ExpandedField` of `device.go`: one leaf of the flattened layout. -/
structure ExpandedField where
  FieldDefinition : DeviceField
  Path : String
  Offset : Nat
  Value : Nat
  Size : Nat

/-- `ExpandedStructure` of `device.go` (the `Parent` pointer again
omitted). -/
structure ExpandedStructure where
  Name : String
  Fields : List ExpandedField
  Size : Nat

/-- `IsAtomic`: a field of one of the three primitive type names. -/
def IsAtomic (f : DeviceField) : Bool :=
  match f.TypeName with
  | "uint8" => true
  | "uint16" => true
  | "uint32" => true
  | _ => false

/-- `AlignmentOf`: alignment of a primitive type name, 1 for anything
else. -/
def AlignmentOf (fieldType : String) : Nat :=
  match fieldType with
  | "uint8" => 1
  | "uint16" => 2
  | "uint32" => 4
  | _ => 1

/-- The primitive rows of `FieldSizeOf` (the non-primitive case resolves a
structure through the global registry and is not needed here). -/
def FieldSizeOfPrimitive (typeName : String) : Nat :=
  match typeName with
  | "uint8" => 1
  | "uint16" => 2
  | "uint32" => 4
  | _ => 0

/-- The global registry resolving a structure type name
(`Global.ValueOf(SymbolWithName(...))` in the Go code), passed explicitly. -/
abbrev Registry := String → Option DeviceStructure

/-- The atomic branch of `ExpandedStructure.addExpandedField`: padding from
the element's own alignment, the element's offset, the appended
`ExpandedField` (value seeded with the constant for constant fields, zero
otherwise), and the advanced running size. -/
def addExpandedFieldAtomic (self : ExpandedStructure) (f : DeviceField)
    (path : String) : ExpandedStructure :=
  let alignment := AlignmentOf f.TypeName
  let paddingRequired :=
    if self.Size = 0 ∨ self.Size % alignment = 0 then 0
    else alignment - self.Size % alignment
  let offset := self.Size + paddingRequired
  let newField : ExpandedField :=
    { FieldDefinition := f, Offset := offset, Size := f.Size, Path := path,
      Value := if f.IsConstant then f.Constant else 0 }
  { self with Fields := self.Fields ++ [newField], Size := offset + f.Size }

/-- The body of the repeat-count loop of `addExpandedField`: path segment
`name/i` when the field repeats, the atomic branch for primitive types, the
`nested` continuation for structure types. -/
def addExpandedFieldStep (f : DeviceField) (pathSoFar : String)
    (nested : ExpandedStructure → String → ExpandedStructure)
    (st : ExpandedStructure) (i : Nat) : ExpandedStructure :=
  let pathPart := if 1 < f.RepeatCount then f.Name ++ "/" ++ toString i else f.Name
  let path := pathSoFar ++ "/" ++ pathPart
  if IsAtomic f then addExpandedFieldAtomic st f path else nested st path

/-- `ExpandedStructure.addExpandedField` / `addExpandedFields`, totalized
with a nesting-depth fuel: a nested structure type is resolved through the
registry and its fields expanded under the extended path at one less fuel
(the Go recursion is unbounded; with fuel 0, or an unresolvable type name —
where Go crashes — the state is left unchanged). -/
def addExpandedField (reg : Registry) :
    Nat → ExpandedStructure → DeviceField → String → ExpandedStructure
  | 0, self, f, pathSoFar =>
      (List.range f.RepeatCount).foldl
        (addExpandedFieldStep f pathSoFar (fun st _ => st)) self
  | fuel + 1, self, f, pathSoFar =>
      (List.range f.RepeatCount).foldl
        (addExpandedFieldStep f pathSoFar (fun st path =>
          match reg f.TypeName with
          | some s => s.Fields.foldl
              (fun st2 g => addExpandedField reg fuel st2 g path) st
          | none => st)) self

/-- `ExpandedStructure.addExpandedFields`: expand a field list in order. -/
def addExpandedFields (reg : Registry) (fuel : Nat) (self : ExpandedStructure)
    (fields : List DeviceField) (pathSoFar : String) : ExpandedStructure :=
  fields.foldl (fun st f => addExpandedField reg fuel st f pathSoFar) self

/-- `DeviceStructure.Expand`: flatten a declared structure, starting from an
empty field list and running size 0. -/
def DeviceStructure.Expand (reg : Registry) (fuel : Nat)
    (self : DeviceStructure) : ExpandedStructure :=
  addExpandedFields reg fuel { Name := self.Name, Fields := [], Size := 0 }
    self.Fields ""

/-- Modelled from the spec: the byte-write helpers
(`addUint8ToByteArray` etc.) write a value starting at `index`, one byte per
increasing address, least significant byte first, for exactly `count`
bytes.  Writing out of range is a `List.set` no-op where Go would panic. -/
def addBytesLE : Nat → Nat → List Nat → Nat → List Nat
  | _, _, bytes, 0 => bytes
  | v, index, bytes, count + 1 =>
      addBytesLE (v / 256) (index + 1) (bytes.set index (v % 256)) count

/-- Modelled from the spec: `addUint8ToByteArray` (the `uint8(f.Value)` cast
of the caller is the low byte the one-byte write keeps). -/
def addUint8ToByteArray (v offset : Nat) (bytes : List Nat) : List Nat :=
  addBytesLE v offset bytes 1

/-- Modelled from the spec: `addUint16ToByteArray`, two bytes little
endian. -/
def addUint16ToByteArray (v offset : Nat) (bytes : List Nat) : List Nat :=
  addBytesLE v offset bytes 2

/-- Modelled from the spec: `addUint32ToByteArray`, four bytes little
endian. -/
def addUint32ToByteArray (v offset : Nat) (bytes : List Nat) : List Nat :=
  addBytesLE v offset bytes 4

/-- `AddFieldToByteArray`: dispatch on the field definition's type name; any
other type name writes nothing. -/
def AddFieldToByteArray (f : ExpandedField) (bytes : List Nat) : List Nat :=
  match f.FieldDefinition.TypeName with
  | "uint8" => addUint8ToByteArray f.Value f.Offset bytes
  | "uint16" => addUint16ToByteArray f.Value f.Offset bytes
  | "uint32" => addUint32ToByteArray f.Value f.Offset bytes
  | _ => bytes

/-- `ExpandedStructure.ByteArray`: a zeroed buffer of the structure's size,
every field written at its offset in field order. -/
def ExpandedStructure.ByteArray (self : ExpandedStructure) : List Nat :=
  self.Fields.foldl (fun bytes f => AddFieldToByteArray f bytes)
    (List.replicate self.Size 0)

/-- The loop of `getValueForField`: starting from accumulator `b`, OR in
`count` bytes from `index` upward, each masked with `0xff` and shifted left
by 8 per step.  Reading out of range yields byte 0 where Go would panic. -/
def getBytesLoop (bytes : List Nat) : Nat → Nat → Nat → Nat → Nat
  | _, _, b, 0 => b
  | index, count, b, rem + 1 =>
      getBytesLoop bytes (index + 1) (count + 1)
        (b ||| ((bytes.getD index 0 &&& 255) <<< (8 * count))) rem

/-- `getValueForField`: a constant field always reads as its declared
constant; any other field is reconstructed little endian from `Size` bytes
at `Offset`. -/
def getValueForField (f : ExpandedField) (bytes : List Nat) : Nat :=
  if f.FieldDefinition.IsConstant then f.FieldDefinition.Constant
  else getBytesLoop bytes f.Offset 0 0 f.Size

/-- `ExpandedStructure.PopulateFromBytes`: set every field's value from the
buffer. -/
def ExpandedStructure.PopulateFromBytes (self : ExpandedStructure)
    (bytes : List Nat) : ExpandedStructure :=
  { self with
    Fields := self.Fields.map (fun f => { f with Value := getValueForField f bytes }) }

/-- Splitting a character list on a separator, keeping empty segments:
mirrors Go's `strings.Split` for the single-character separator `/` the
code uses. -/
def splitOnCharAux (sep : Char) : List Char → List Char → List (List Char)
  | [], acc => [acc.reverse]
  | c :: cs, acc =>
    if c = sep then acc.reverse :: splitOnCharAux sep cs []
    else splitOnCharAux sep cs (c :: acc)

/-- Split a string on a separator character. -/
def splitOnChar (sep : Char) (s : String) : List String :=
  (splitOnCharAux sep s.toList []).map List.asString

/-- `stepsFromPath`: split the path on `/` and drop the leading empty
segment. -/
def stepsFromPath (path : String) : List String :=
  (splitOnChar '/' path).drop 1

/-- The value of a decimal digit character, `none` otherwise. -/
def decDigit? (c : Char) : Option Nat :=
  if '0' ≤ c ∧ c ≤ '9' then some (c.toNat - 48) else none

/-- A nonempty all-decimal character list as a number, `none` otherwise. -/
def parseNatDigits : List Char → Option Nat
  | [] => none
  | cs => cs.foldl
      (fun acc c =>
        match acc, decDigit? c with
        | some a, some d => some (10 * a + d)
        | _, _ => none)
      (some 0)

/-- Mirrors `strconv.ParseInt(step, 10, 32)` on path steps: an optional
sign followed by at least one decimal digit (the 32-bit overflow bound is
not modelled; path indices stay far below it). -/
def parseIntStep (s : String) : Option Int :=
  match s.toList with
  | '+' :: cs => (parseNatDigits cs).map Int.ofNat
  | '-' :: cs => (parseNatDigits cs).map (fun n => -(n : Int))
  | cs => (parseNatDigits cs).map Int.ofNat

/-- `ExpandedField.extractValueFromJsonWithStepAndParent`, as a function
from the field's current value to its new value.  A constant field is never
read from the document.  A `fromJson` transform, when attached, is applied
(through the collaborator) to the current node and its parent at every
recursion step, as in the Go code.  A step that parses as an integer is an
array index (`Nth` at `i+1`); any other step is a hash key, and a missing
key leaves the value unchanged.  With no steps left the node's numeric
value is taken. -/
def extractValueFromJsonSteps (fd : DeviceField) (value : Nat) :
    LData → List String → LData → Nat
  | json, steps, parentNode =>
    if fd.IsConstant then value
    else
      let json := match fd.FromJsonTransform with
        | some t => t json parentNode
        | none => json
      match steps with
      | [] => NumericValue json
      | step :: rest =>
        match parseIntStep step with
        | none =>
          match Assoc step json with
          | some v => extractValueFromJsonSteps fd value v rest json
          | none => value
        | some i => extractValueFromJsonSteps fd value (Nth json (i + 1)) rest json

/-- `ExpandedField.extractValueFromJson`: walk the document along the
field's path (parent starts out nil). -/
def ExpandedField.extractValueFromJson (self : ExpandedField) (alist : LData) :
    ExpandedField :=
  { self with
    Value := extractValueFromJsonSteps self.FieldDefinition self.Value alist
      (stepsFromPath self.Path) .nil }

/-- `ExpandedStructure.PopulateFromJson`: populate every field from the
document. -/
def ExpandedStructure.PopulateFromJson (self : ExpandedStructure)
    (jsonData : LData) : ExpandedStructure :=
  { self with Fields := self.Fields.map (fun f => f.extractValueFromJson jsonData) }

/-- `ExpandedField.Validate` on the field definition, returning the result,
the updated definition, and the number of deferred-expression evaluations
performed.  Priority order as in the Go code: constant, range rule,
value-set rule, deferred rule, no rule.  The deferred branch evaluates the
expression (an error yields false), re-runs validation on the updated
definition, then clears the range and value-set rules — but not the
deferred expression itself.  The Go recursion does not terminate when the
expression attaches no rule; `fuel` bounds it (exhaustion yields false). -/
def validateFieldDef : Nat → DeviceField → Nat → Env → Bool × DeviceField × Nat
  | fuel, fieldDef, value, env =>
    if fieldDef.IsConstant then (true, fieldDef, 0)
    else
      match fieldDef.ValidRange with
      | some r => (r.Validate value, fieldDef, 0)
      | none =>
        match fieldDef.ValidValues with
        | some vs => (vs.Validate value, fieldDef, 0)
        | none =>
          match fieldDef.DeferredValidationCode with
          | some code =>
            match code env with
            | none => (false, fieldDef, 1)
            | some rule =>
              match fuel with
              | 0 => (false, fieldDef, 1)
              | fuel' + 1 =>
                let fd2 := { fieldDef with
                  ValidRange := rule.1, ValidValues := rule.2 }
                let res := validateFieldDef fuel' fd2 value env
                (res.1,
                 { res.2.1 with ValidRange := none, ValidValues := none },
                 1 + res.2.2)
          | none => (true, fieldDef, 0)

/-- `ExpandedField.Validate`: validate the field's value against its
definition, carrying the definition updates of the deferred branch. -/
def ExpandedField.Validate (fuel : Nat) (self : ExpandedField) (env : Env) :
    Bool × ExpandedField × Nat :=
  let res := validateFieldDef fuel self.FieldDefinition self.Value env
  (res.1, { self with FieldDefinition := res.2.1 }, res.2.2)

/-- The loop of `ExpandedStructure.Validate`: bind the field's name to its
value, validate it under the environment built so far, and short-circuit on
the first failure. -/
def validateFieldsLoop (fuel : Nat) :
    List ExpandedField → Env → Bool × List ExpandedField × Nat
  | [], _ => (true, [], 0)
  | field :: rest, env =>
    let env2 := BindLocallyTo env field.FieldDefinition.Name field.Value
    let res := field.Validate fuel env2
    if res.1 then
      let res2 := validateFieldsLoop fuel rest env2
      (res2.1, res.2.1 :: res2.2.1, res.2.2 + res2.2.2)
    else (false, res.2.1 :: rest, res.2.2)

/-- `ExpandedStructure.Validate`: a fresh scope for the pass (below the
global frame, whose bindings the modelled expressions never consult), then
the field loop. -/
def ExpandedStructure.Validate (fuel : Nat) (self : ExpandedStructure) :
    Bool × ExpandedStructure × Nat :=
  let res := validateFieldsLoop fuel self.Fields []
  (res.1, { self with Fields := res.2.1 }, res.2.2)

/-- A device API: its write command identifier and the command-framing
collaborator wrapping a payload for the wire (`Modelled from the spec:`
`SerializePayload` of the write command object). -/
structure DeviceApi where
  Name : String
  WriteCmd : Nat
  SerializePayload : List Nat → List Nat

/-- `DeviceDeclaration`, restricted to what the write path uses: the handle,
the expanded structures and the APIs by name. -/
structure DeviceDeclaration where
  Name : String
  Handle : Nat
  ExpandedStructures : List (String × ExpandedStructure)
  Apis : List (String × DeviceApi)

/-- One call to the transport collaborator's `Write`. -/
structure DriverWrite where
  handle : Nat
  cmd : Nat
  bytes : List Nat
  length : Nat
deriving DecidableEq, Repr

/-- The observable outcome of `WriteToDevice`: the validation result the
code computed (and discarded), the driver calls made, and the structure
state afterwards. -/
structure WriteOutcome where
  validated : Bool
  driverWrites : List DriverWrite
  structureAfter : ExpandedStructure

/-- Association-list lookup standing in for Go's map indexing. -/
def lookupNamed {α : Type} (l : List (String × α)) (name : String) : Option α :=
  (l.find? (fun p => p.fst = name)).map Prod.snd

/-- `WriteToDevice` after JSON text parsing: the API name is the first
top-level key of the document and its value the input data (`Caar`/`Cdar`).
The structure is populated, validated — the Go code discards the validation
result — serialized, framed by the collaborator and handed to the driver's
`Write` with the device handle and command id.  `none` models the crashes
Go has on a missing API or structure. -/
def WriteToDevice (fuel : Nat) (device : DeviceDeclaration) (json : LData) :
    Option WriteOutcome :=
  match json with
  | .alist ((apiName, jsonData) :: _) =>
    match lookupNamed device.Apis apiName,
        lookupNamed device.ExpandedStructures apiName with
    | some api, some st =>
      let st1 := st.PopulateFromJson jsonData
      let vres := st1.Validate fuel
      let st2 := vres.2.1
      let payload := st2.ByteArray
      let framed := api.SerializePayload payload
      some { validated := vres.1,
             driverWrites := [{ handle := device.Handle, cmd := api.WriteCmd,
                                bytes := framed, length := framed.length }],
             structureAfter := st2 }
    | _, _ => none
  | _ => none

/-- Bind every field of a list, in order, on top of `env` (most recent
binding first). -/
def bindFields (fields : List ExpandedField) (env : Env) : Env :=
  fields.foldl (fun e f => BindLocallyTo e f.FieldDefinition.Name f.Value) env

/-- The validation pass as the claim's words describe it: every field of the
owning structure is bound in the environment before any field is validated
(compare `validateFieldsLoop`, which binds incrementally). -/
def validateFieldsLoopAllBound (fuel : Nat) (envAll : Env) :
    List ExpandedField → Bool × List ExpandedField × Nat
  | [] => (true, [], 0)
  | field :: rest =>
    let res := field.Validate fuel envAll
    if res.1 then
      let res2 := validateFieldsLoopAllBound fuel envAll rest
      (res2.1, res.2.1 :: res2.2.1, res.2.2 + res2.2.2)
    else (false, res.2.1 :: rest, res.2.2)

/-- Structure validation under the claim's reading: a fresh scope binding
every field name of the structure up front. -/
def ExpandedStructure.ValidateAllBound (fuel : Nat) (self : ExpandedStructure) :
    Bool × ExpandedStructure × Nat :=
  let res := validateFieldsLoopAllBound fuel (bindFields self.Fields []) self.Fields
  (res.1, { self with Fields := res.2.1 }, res.2.2)

/-- The same pass with the environment of each field made explicit: the
field at position `i` (with `done` the already-processed prefix) is
validated under a fresh scope binding exactly the fields up to and
including it, in declaration order. -/
def validateFieldsPrefixEnvs (fuel : Nat) :
    List ExpandedField → List ExpandedField → Bool × List ExpandedField × Nat
  | _, [] => (true, [], 0)
  | done, field :: rest =>
    let env := bindFields (done ++ [field]) []
    let res := field.Validate fuel env
    if res.1 then
      let res2 := validateFieldsPrefixEnvs fuel (done ++ [field]) rest
      (res2.1, res.2.1 :: res2.2.1, res.2.2 + res2.2.2)
    else (false, res.2.1 :: rest, res.2.2)

/-- A walk of `steps` through `doc` that reaches a hash-key step whose key
the current node does not have (the skipped-without-error case of
population). -/
def missesKey : LData → List String → Bool
  | _, [] => false
  | json, step :: rest =>
    match parseIntStep step with
    | none =>
      match Assoc step json with
      | none => true
      | some v => missesKey v rest
    | some i => missesKey (Nth json (i + 1)) rest

/-- Type name and element size of an expanded field agree with the
primitive catalog (what expansion produces for fields declared with
`FieldSizeOf` sizes). -/
def TypeSizeOk (f : ExpandedField) : Prop :=
  (f.FieldDefinition.TypeName = "uint8" ∧ f.Size = 1) ∨
  (f.FieldDefinition.TypeName = "uint16" ∧ f.Size = 2) ∨
  (f.FieldDefinition.TypeName = "uint32" ∧ f.Size = 4)

instance (f : ExpandedField) : Decidable (TypeSizeOk f) := by
  unfold TypeSizeOk; infer_instance

/-- Every atomic field of a declared structure has a positive element size
(declaration building sets the size from the primitive catalog: 1, 2 or
4). -/
def AtomicSizesPositive (s : DeviceStructure) : Prop :=
  ∀ f ∈ s.Fields, IsAtomic f = true → 0 < f.Size

instance (s : DeviceStructure) : Decidable (AtomicSizesPositive s) := by
  unfold AtomicSizesPositive; infer_instance

/-- Every structure the registry resolves has positive atomic sizes. -/
def RegistrySizesPositive (reg : Registry) : Prop :=
  ∀ n s, reg n = some s → AtomicSizesPositive s

/-- The layout invariant expansion maintains: offsets strictly increasing,
every field of positive size ending within the running size, and the
running size equal to the end of the last field (0 with no fields). -/
def LayoutInv (st : ExpandedStructure) : Prop :=
  List.Pairwise (fun a b => a.Offset < b.Offset) st.Fields ∧
  (∀ f ∈ st.Fields, 0 < f.Size ∧ f.Offset + f.Size ≤ st.Size) ∧
  st.Size = st.Fields.getLast?.elim 0 (fun f => f.Offset + f.Size)

/-- An empty registry (no structure type names resolvable). -/
def regEmpty : Registry := fun _ => none

/-- The structure of the end-to-end example: `{status: uint8, value:
uint16}`. -/
def structC2 : DeviceStructure :=
  { Name := "api", Fields := [
      { Name := "status", TypeName := "uint8", Size := 1, RepeatCount := 1 },
      { Name := "value", TypeName := "uint16", Size := 2, RepeatCount := 1 }] }

/-- Its expansion. -/
def esC2 : ExpandedStructure := structC2.Expand regEmpty 1

/-- The example input document `{"status": 1, "value": 300}`. -/
def docC2 : LData := .alist [("status", .num 1), ("value", .num 300)]

/-- The expanded example structure populated with `status=1, value=300`. -/
def esC2p : ExpandedStructure := esC2.PopulateFromJson docC2

/-- Four fields of sizes 1, 4, 2, 1 (types uint8, uint32, uint16, uint8) in
declaration order. -/
def structC3 : DeviceStructure :=
  { Name := "s", Fields := [
      { Name := "a", TypeName := "uint8", Size := 1, RepeatCount := 1 },
      { Name := "b", TypeName := "uint32", Size := 4, RepeatCount := 1 },
      { Name := "c", TypeName := "uint16", Size := 2, RepeatCount := 1 },
      { Name := "d", TypeName := "uint8", Size := 1, RepeatCount := 1 }] }

/-- A single uint8 field structure. -/
def structB : DeviceStructure :=
  { Name := "api", Fields := [
      { Name := "b", TypeName := "uint8", Size := 1, RepeatCount := 1 }] }

/-- The uint8 structure populated with the out-of-width value 300. -/
def esB : ExpandedStructure :=
  (structB.Expand regEmpty 1).PopulateFromJson (.alist [("b", .num 300)])

/-- A field definition carrying only a deferred rule whose expression
attaches `Range{lo:2, hi:4}`. -/
def fdDeferred : DeviceField :=
  { Name := "a", TypeName := "uint8", Size := 1, RepeatCount := 1,
    DeferredValidationCode := some (fun _ => some (some ⟨2, 4⟩, none)) }

/-- An expanded field over `fdDeferred`, currently valued 3. -/
def efDeferred : ExpandedField :=
  { FieldDefinition := fdDeferred, Path := "/a", Offset := 0, Value := 3, Size := 1 }

/-- A field whose deferred expression needs the name `b` bound in the
evaluation environment: it errors when `b` is absent and attaches an
always-satisfied range when present. -/
def fdNeedsB : DeviceField :=
  { Name := "a", TypeName := "uint8", Size := 1, RepeatCount := 1,
    DeferredValidationCode := some (fun env =>
      match lookupBinding env "b" with
      | some _ => some (some ⟨0, 255⟩, none)
      | none => none) }

/-- A two-field structure whose first field's deferred expression consults
the second field's name. -/
def esC6 : ExpandedStructure :=
  { Name := "s", Size := 2, Fields := [
      { FieldDefinition := fdNeedsB, Path := "/a", Offset := 0, Value := 3, Size := 1 },
      { FieldDefinition :=
          { Name := "b", TypeName := "uint8", Size := 1, RepeatCount := 1 },
        Path := "/b", Offset := 1, Value := 7, Size := 1 }] }

/-- A one-field structure whose field carries the range rule `[0, 0]`. -/
def structC1 : DeviceStructure :=
  { Name := "api", Fields := [
      { Name := "x", TypeName := "uint8", Size := 1, RepeatCount := 1,
        ValidRange := some ⟨0, 0⟩ }] }

/-- A device declaration exposing `structC1` under API name `api`, with a
framing collaborator that prepends a header byte. -/
def devC1 : DeviceDeclaration :=
  { Name := "dev", Handle := 7,
    ExpandedStructures := [("api", structC1.Expand regEmpty 1)],
    Apis := [("api", { Name := "api", WriteCmd := 9,
                       SerializePayload := fun bs => 0xAA :: bs })] }

/-- The write document `{"api": {"x": 5}}` — the value 5 violates the
range rule `[0, 0]`. -/
def jsonC1 : LData := .alist [("api", .alist [("x", .num 5)])]

/-- A constant expanded field (declared constant 0x55). -/
def efConst : ExpandedField :=
  { FieldDefinition :=
      { Name := "magic", TypeName := "uint8", Size := 1, RepeatCount := 1,
        IsConstant := true, Constant := 0x55 },
    Path := "/magic", Offset := 0, Value := 0x55, Size := 1 }

/-- A non-constant uint8 expanded field at offset 0 holding the
out-of-width value 300. -/
def efWide : ExpandedField :=
  { FieldDefinition :=
      { Name := "b", TypeName := "uint8", Size := 1, RepeatCount := 1 },
    Path := "/b", Offset := 0, Value := 300, Size := 1 }

/-- A document carrying none of the example structure's keys. -/
def docMiss : LData := .alist [("other", .num 9)]

/-! Byte-codec lemmas. -/

theorem getD_set_ne {l : List Nat} {i j : Nat} (h : i ≠ j) (a : Nat) :
    (l.set i a).getD j 0 = l.getD j 0 := by
  simp [List.getD_eq_getElem?_getD, List.getElem?_set_ne h]

theorem getD_set_self {l : List Nat} {i : Nat} (h : i < l.length) (a : Nat) :
    (l.set i a).getD i 0 = a := by
  simp [List.getD_eq_getElem?_getD, List.getElem?_set_self h]

theorem addBytesLE_length (count : Nat) :
    ∀ (v index : Nat) (bytes : List Nat),
      (addBytesLE v index bytes count).length = bytes.length := by
  induction count with
  | zero => intro v index bytes; rfl
  | succ n ih =>
    intro v index bytes
    rw [addBytesLE, ih]
    exact bytes.length_set index _

theorem addBytesLE_getD_lt (count : Nat) :
    ∀ (v index : Nat) (bytes : List Nat) (j : Nat), j < index →
      (addBytesLE v index bytes count).getD j 0 = bytes.getD j 0 := by
  induction count with
  | zero => intro v index bytes j _; rfl
  | succ n ih =>
    intro v index bytes j hj
    rw [addBytesLE, ih _ _ _ _ (by omega)]
    exact getD_set_ne (by omega) _

theorem addBytesLE_getD_ge (count : Nat) :
    ∀ (v index : Nat) (bytes : List Nat) (j : Nat), index + count ≤ j →
      (addBytesLE v index bytes count).getD j 0 = bytes.getD j 0 := by
  induction count with
  | zero => intro v index bytes j _; rfl
  | succ n ih =>
    intro v index bytes j hj
    rw [addBytesLE, ih _ _ _ _ (by omega)]
    exact getD_set_ne (by omega) _

theorem getBytesLoop_congr :
    ∀ (rem : Nat) (b1 b2 : List Nat) (index count acc : Nat),
      (∀ j, index ≤ j → j < index + rem → b1.getD j 0 = b2.getD j 0) →
      getBytesLoop b1 index count acc rem = getBytesLoop b2 index count acc rem := by
  intro rem
  induction rem with
  | zero => intro b1 b2 index count acc _; rfl
  | succ n ih =>
    intro b1 b2 index count acc h
    rw [getBytesLoop, getBytesLoop, h index le_rfl (by omega)]
    exact ih b1 b2 (index + 1) (count + 1) _ (fun j h1 h2 => h j (by omega) (by omega))

theorem getBytesLoop_addBytesLE :
    ∀ (rem v index count acc : Nat) (bytes : List Nat),
      index + rem ≤ bytes.length → acc < 2 ^ (8 * count) →
      getBytesLoop (addBytesLE v index bytes rem) index count acc rem =
        acc + v % 2 ^ (8 * rem) * 2 ^ (8 * count) := by
  intro rem
  induction rem with
  | zero =>
    intro v index count acc bytes _ _
    simp [addBytesLE, getBytesLoop, Nat.mod_one]
  | succ n ih =>
    intro v index count acc bytes hlen hacc
    rw [addBytesLE, getBytesLoop]
    have hidx : index < bytes.length := by omega
    have hbyte :
        (addBytesLE (v / 256) (index + 1) (bytes.set index (v % 256)) n).getD index 0
          = v % 256 := by
      rw [addBytesLE_getD_lt n _ _ _ _ (Nat.lt_succ_self index)]
      exact getD_set_self hidx _
    have hmask : (v % 256) &&& 255 = v % 256 := by
      have h255 : (255 : Nat) = 2 ^ 8 - 1 := by norm_num
      rw [h255, Nat.and_pow_two_sub_one_eq_mod]
      omega
    have hlor : acc ||| ((v % 256) <<< (8 * count)) = acc + v % 256 * 2 ^ (8 * count) := by
      rw [Nat.shiftLeft_eq, Nat.lor_comm, Nat.mul_comm (v % 256) (2 ^ (8 * count)),
        ← Nat.mul_add_lt_is_or hacc (v % 256)]
      ring
    rw [hbyte, hmask, hlor]
    have haccs : acc + v % 256 * 2 ^ (8 * count) < 2 ^ (8 * (count + 1)) := by
      calc acc + v % 256 * 2 ^ (8 * count)
          < 2 ^ (8 * count) + v % 256 * 2 ^ (8 * count) := by omega
        _ ≤ 2 ^ (8 * count) + 255 * 2 ^ (8 * count) :=
            Nat.add_le_add_left (Nat.mul_le_mul_right _ (by omega)) _
        _ = 256 * 2 ^ (8 * count) := by ring
        _ = 2 ^ (8 * (count + 1)) := by
            rw [show 8 * (count + 1) = 8 + 8 * count by ring, Nat.pow_add]
    rw [ih (v / 256) (index + 1) (count + 1) _ (bytes.set index (v % 256))
      (by rw [bytes.length_set]; omega) haccs]
    have hsplit : v % 2 ^ (8 * (n + 1)) = v % 256 + 256 * (v / 256 % 2 ^ (8 * n)) := by
      rw [show (8 * (n + 1) : Nat) = 8 + 8 * n by ring, Nat.pow_add,
        show ((2 : Nat) ^ 8 : Nat) = 256 by norm_num, Nat.mod_mul]
    have hpc : (2 : Nat) ^ (8 * (count + 1)) = 2 ^ (8 * count) * 256 := by
      rw [show 8 * (count + 1) = 8 * count + 8 by ring, Nat.pow_add]
    rw [hsplit, hpc]
    generalize 2 ^ (8 * count) = P
    generalize v / 256 % 2 ^ (8 * n) = Q
    ring

theorem getValueForField_write_self (f : ExpandedField) (bytes : List Nat)
    (hc : f.FieldDefinition.IsConstant = false) (hty : TypeSizeOk f)
    (hlen : f.Offset + f.Size ≤ bytes.length) :
    getValueForField f (AddFieldToByteArray f bytes) = f.Value % 2 ^ (8 * f.Size) := by
  rcases hty with ⟨ht, hs⟩ | ⟨ht, hs⟩ | ⟨ht, hs⟩
  · have h1 : getValueForField f (AddFieldToByteArray f bytes)
        = getBytesLoop (addBytesLE f.Value f.Offset bytes 1) f.Offset 0 0 f.Size := by
      unfold getValueForField AddFieldToByteArray
      rw [hc, ht]
      rfl
    rw [h1, hs]
    simpa using getBytesLoop_addBytesLE 1 f.Value f.Offset 0 0 bytes (by omega) (by norm_num)
  · have h1 : getValueForField f (AddFieldToByteArray f bytes)
        = getBytesLoop (addBytesLE f.Value f.Offset bytes 2) f.Offset 0 0 f.Size := by
      unfold getValueForField AddFieldToByteArray
      rw [hc, ht]
      rfl
    rw [h1, hs]
    simpa using getBytesLoop_addBytesLE 2 f.Value f.Offset 0 0 bytes (by omega) (by norm_num)
  · have h1 : getValueForField f (AddFieldToByteArray f bytes)
        = getBytesLoop (addBytesLE f.Value f.Offset bytes 4) f.Offset 0 0 f.Size := by
      unfold getValueForField AddFieldToByteArray
      rw [hc, ht]
      rfl
    rw [h1, hs]
    simpa using getBytesLoop_addBytesLE 4 f.Value f.Offset 0 0 bytes (by omega) (by norm_num)

theorem AddFieldToByteArray_length (f : ExpandedField) (bytes : List Nat) :
    (AddFieldToByteArray f bytes).length = bytes.length := by
  unfold AddFieldToByteArray addUint8ToByteArray addUint16ToByteArray
    addUint32ToByteArray
  split <;> first | rfl | exact addBytesLE_length _ _ _ _

theorem AddFieldToByteArray_getD_lt (f : ExpandedField) (bytes : List Nat)
    (j : Nat) (hj : j < f.Offset) :
    (AddFieldToByteArray f bytes).getD j 0 = bytes.getD j 0 := by
  unfold AddFieldToByteArray addUint8ToByteArray addUint16ToByteArray
    addUint32ToByteArray
  split <;> first | rfl | exact addBytesLE_getD_lt _ _ _ _ _ hj

theorem AddFieldToByteArray_eq_addBytesLE (f : ExpandedField) (bytes : List Nat)
    (hty : TypeSizeOk f) :
    AddFieldToByteArray f bytes = addBytesLE f.Value f.Offset bytes f.Size := by
  rcases hty with ⟨ht, hs⟩ | ⟨ht, hs⟩ | ⟨ht, hs⟩ <;> (unfold AddFieldToByteArray; rw [ht, hs]; rfl)

theorem writeFold_length :
    ∀ (fs : List ExpandedField) (bytes : List Nat),
      (fs.foldl (fun b f => AddFieldToByteArray f b) bytes).length = bytes.length := by
  intro fs
  induction fs with
  | nil => intro bytes; rfl
  | cons f rest ih =>
    intro bytes
    rw [List.foldl_cons, ih, AddFieldToByteArray_length]

theorem writeFold_getD_lt :
    ∀ (fs : List ExpandedField) (bytes : List Nat) (j : Nat),
      (∀ f ∈ fs, j < f.Offset) →
      (fs.foldl (fun b f => AddFieldToByteArray f b) bytes).getD j 0 = bytes.getD j 0 := by
  intro fs
  induction fs with
  | nil => intro bytes j _; rfl
  | cons f rest ih =>
    intro bytes j h
    rw [List.foldl_cons, ih _ _ (fun g hg => h g (List.mem_cons_of_mem f hg)),
      AddFieldToByteArray_getD_lt _ _ _ (h f (List.mem_cons_self f rest))]

theorem readAll_writeFold :
    ∀ (fs : List ExpandedField) (bytes : List Nat),
      List.Pairwise (fun a b => a.Offset + a.Size ≤ b.Offset) fs →
      (∀ f ∈ fs, f.Offset + f.Size ≤ bytes.length) →
      (∀ f ∈ fs, TypeSizeOk f) →
      ∀ f ∈ fs, f.FieldDefinition.IsConstant = false →
        getValueForField f (fs.foldl (fun b g => AddFieldToByteArray g b) bytes)
          = f.Value % 2 ^ (8 * f.Size) := by
  intro fs
  induction fs with
  | nil => intro bytes _ _ _ f hf; cases hf
  | cons f rest ih =>
    intro bytes hdisj hbound hty g hg hc
    rw [List.foldl_cons]
    rcases List.mem_cons.mp hg with rfl | hgr
    · -- the head field: later writes do not touch its byte range
      have hafter : ∀ h ∈ rest, g.Offset + g.Size ≤ h.Offset :=
        fun h hh => (List.pairwise_cons.mp hdisj).1 h hh
      have hcongr :
          getBytesLoop
            (rest.foldl (fun b x => AddFieldToByteArray x b) (AddFieldToByteArray g bytes))
            g.Offset 0 0 g.Size
          = getBytesLoop (AddFieldToByteArray g bytes) g.Offset 0 0 g.Size := by
        apply getBytesLoop_congr
        intro j hj1 hj2
        exact writeFold_getD_lt rest _ j (fun h hh => by
          have := hafter h hh; omega)
      have hread : getValueForField g
          (rest.foldl (fun b x => AddFieldToByteArray x b) (AddFieldToByteArray g bytes))
          = getBytesLoop
            (rest.foldl (fun b x => AddFieldToByteArray x b) (AddFieldToByteArray g bytes))
            g.Offset 0 0 g.Size := by
        unfold getValueForField
        rw [hc]
        rfl
      rw [hread, hcongr,
        AddFieldToByteArray_eq_addBytesLE g bytes (hty g (List.mem_cons_self g rest))]
      simpa using getBytesLoop_addBytesLE g.Size g.Value g.Offset 0 0 bytes
        (hbound g (List.mem_cons_self g rest)) (by norm_num)
    · -- a later field: apply the induction hypothesis over the once-written buffer
      exact ih (AddFieldToByteArray f bytes) (List.pairwise_cons.mp hdisj).2
        (fun h hh => by rw [AddFieldToByteArray_length]; exact hbound h (List.mem_cons_of_mem f hh))
        (fun h hh => hty h (List.mem_cons_of_mem f hh)) g hgr hc

/-! Expansion layout lemmas. -/

theorem layoutInv_atomic (st : ExpandedStructure) (f : DeviceField) (path : String)
    (hinv : LayoutInv st) (hsz : 0 < f.Size) :
    LayoutInv (addExpandedFieldAtomic st f path) := by
  obtain ⟨hpw, hbnd, hlast⟩ := hinv
  simp only [addExpandedFieldAtomic, LayoutInv]
  set pad := if st.Size = 0 ∨ st.Size % AlignmentOf f.TypeName = 0 then 0
    else AlignmentOf f.TypeName - st.Size % AlignmentOf f.TypeName with hpad
  refine ⟨?_, ?_, ?_⟩
  · rw [List.pairwise_append]
    refine ⟨hpw, List.pairwise_singleton _ _, ?_⟩
    intro a ha b hb
    rw [List.mem_singleton] at hb
    subst hb
    have := hbnd a ha
    dsimp only
    omega
  · intro g hg
    rcases List.mem_append.mp hg with hgl | hgr
    · have := hbnd g hgl
      omega
    · rw [List.mem_singleton] at hgr
      subst hgr
      dsimp only
      omega
  · rw [List.getLast?_concat]
    rfl

theorem addExpandedField_layoutInv (reg : Registry)
    (hreg : RegistrySizesPositive reg) :
    ∀ (fuel : Nat) (st : ExpandedStructure) (f : DeviceField) (path : String),
      LayoutInv st → (IsAtomic f = true → 0 < f.Size) →
      LayoutInv (addExpandedField reg fuel st f path) := by
  intro fuel
  induction fuel with
  | zero =>
    intro st f path hinv hf
    rw [addExpandedField]
    refine List.foldlRecOn _ _ _ hinv ?_
    intro st2 hst2 i _
    unfold addExpandedFieldStep
    cases ha : IsAtomic f with
    | true => simpa using layoutInv_atomic _ f _ hst2 (hf ha)
    | false => simpa using hst2
  | succ n ih =>
    intro st f path hinv hf
    rw [addExpandedField]
    refine List.foldlRecOn _ _ _ hinv ?_
    intro st2 hst2 i _
    unfold addExpandedFieldStep
    cases ha : IsAtomic f with
    | true => simpa using layoutInv_atomic _ f _ hst2 (hf ha)
    | false =>
      simp only [ha, Bool.false_eq_true, if_false]
      cases hr : reg f.TypeName with
      | none => exact hst2
      | some s =>
        refine List.foldlRecOn _ _ _ hst2 ?_
        intro st3 hst3 g hg
        exact ih st3 g _ hst3 (fun hga => hreg _ _ hr g hg hga)

theorem addExpandedFields_layoutInv (reg : Registry)
    (hreg : RegistrySizesPositive reg) (fuel : Nat)
    (fields : List DeviceField) (st : ExpandedStructure) (path : String)
    (hinv : LayoutInv st)
    (hf : ∀ f ∈ fields, IsAtomic f = true → 0 < f.Size) :
    LayoutInv (addExpandedFields reg fuel st fields path) := by
  unfold addExpandedFields
  refine List.foldlRecOn _ _ _ hinv ?_
  intro st2 hst2 f hfm
  exact addExpandedField_layoutInv reg hreg fuel st2 f path hst2 (hf f hfm)

/-! Validation lemmas. -/

theorem validate_deferred_step (fuel : Nat) (ef : ExpandedField)
    (code : DeferredCode) (r : Range) (env : Env)
    (hconst : ef.FieldDefinition.IsConstant = false)
    (hr : ef.FieldDefinition.ValidRange = none)
    (hv : ef.FieldDefinition.ValidValues = none)
    (hd : ef.FieldDefinition.DeferredValidationCode = some code)
    (heval : code env = some (some r, none)) :
    ef.Validate (fuel + 1) env =
      (r.Validate ef.Value,
       { ef with FieldDefinition :=
           { ef.FieldDefinition with ValidRange := none, ValidValues := none } },
       1) := by
  obtain ⟨fd, pth, off, value, size⟩ := ef
  obtain ⟨nm, tn, sz, rc, ic, konst, vr, vv, dc, tr⟩ := fd
  simp only at hconst hr hv hd
  subst hconst hr hv hd
  simp [ExpandedField.Validate, validateFieldDef, heval]

theorem bindFields_append (l1 l2 : List ExpandedField) (env : Env) :
    bindFields (l1 ++ l2) env = bindFields l2 (bindFields l1 env) := by
  unfold bindFields
  rw [List.foldl_append]

theorem validateFieldsLoop_prefixEnvs (fuel : Nat) :
    ∀ (fields done : List ExpandedField),
      validateFieldsLoop fuel fields (bindFields done []) =
        validateFieldsPrefixEnvs fuel done fields := by
  intro fields
  induction fields with
  | nil => intro done; rfl
  | cons f rest ih =>
    intro done
    have henv : BindLocallyTo (bindFields done []) f.FieldDefinition.Name f.Value
        = bindFields (done ++ [f]) [] := by
      rw [bindFields_append]
      rfl
    simp only [validateFieldsLoop, validateFieldsPrefixEnvs, henv, ih (done ++ [f])]

/-! JSON population lemmas. -/

theorem extract_missing_key_keeps_value :
    ∀ (steps : List String) (fd : DeviceField) (value : Nat) (json parent : LData),
      fd.IsConstant = false → fd.FromJsonTransform = none →
      missesKey json steps = true →
      extractValueFromJsonSteps fd value json steps parent = value := by
  intro steps
  induction steps with
  | nil =>
    intro fd value json parent _ _ hmiss
    simp [missesKey] at hmiss
  | cons step rest ih =>
    intro fd value json parent hc htr hmiss
    unfold extractValueFromJsonSteps
    rw [hc, htr]
    unfold missesKey at hmiss
    cases hp : parseIntStep step with
    | none =>
      rw [hp] at hmiss
      cases ha : Assoc step json with
      | none => simp [hp, ha]
      | some v =>
        rw [ha] at hmiss
        simp only [hp, ha]
        simp only [Bool.false_eq_true, if_false]
        exact ih fd value v json hc htr hmiss
    | some i =>
      rw [hp] at hmiss
      simp only [hp, Bool.false_eq_true, if_false]
      exact ih fd value (Nth json (i + 1)) json hc htr hmiss

/-! The claims. -/

/-- C1: the specification says a validation failure aborts the write before
any I/O.  The code computes `structure.Validate()` and discards the
result: on a document whose value 5 violates the field's range rule
`[0, 0]`, validation returns false and the driver's `Write` is still
invoked, with the framed serialized bytes. -/
theorem writeToDevice_discards_validation :
    (WriteToDevice 8 devC1 jsonC1).map (fun o => (o.validated, o.driverWrites)) =
      some (false, [{ handle := 7, cmd := 9, bytes := [0xAA, 5], length := 2 }]) := by
  decide

/-- C2 counterexample: for `{status: uint8, value: 300}` the claimed buffer
`[1, 0x2C, 0x01]` with value at offset 1 is wrong — the 2-byte alignment
of the uint16 field puts it at offset 2, after a padding byte. -/
theorem endToEnd_claim_false :
    ¬(esC2p.ByteArray = [1, 0x2C, 0x01] ∧
      esC2.Fields.map (fun f => f.Offset) = [0, 1]) := by
  decide

/-- C2 (amended): expansion places `status` at offset 0 and `value` at
offset 2 (one padding byte from the 2-byte alignment), the structure is
4 bytes, population reads 1 and 300, and serialization produces
`[1, 0, 0x2C, 0x01]` (little-endian 300 = `2C 01` at offset 2). -/
theorem endToEnd_buffer :
    esC2.Fields.map (fun f => (f.Path, f.Offset)) = [("/status", 0), ("/value", 2)] ∧
    esC2.Size = 4 ∧
    esC2p.Fields.map (fun f => f.Value) = [1, 300] ∧
    esC2p.ByteArray = [1, 0, 0x2C, 0x01] := by
  decide

/-- C3: expansion processes fields in declaration order with a running
cursor starting at 0; each atomic element gets padding 0 when the cursor
is 0 or divides evenly by the alignment and `alignment - cursor %
alignment` otherwise, its offset is `cursor + padding`, and the cursor
advances to `offset + elementSize`; for four fields of sizes 1,4,2,1
(alignments 1,4,2,1) the offsets are 0,4,8,10. -/
theorem expansion_padding_rule :
    (∀ (st : ExpandedStructure) (f : DeviceField) (path : String),
      (addExpandedFieldAtomic st f path).Fields =
        st.Fields ++ [{ FieldDefinition := f, Path := path,
                        Offset := st.Size +
                          (if st.Size = 0 ∨ st.Size % AlignmentOf f.TypeName = 0 then 0
                           else AlignmentOf f.TypeName - st.Size % AlignmentOf f.TypeName),
                        Value := if f.IsConstant then f.Constant else 0,
                        Size := f.Size }] ∧
      (addExpandedFieldAtomic st f path).Size =
        st.Size +
          (if st.Size = 0 ∨ st.Size % AlignmentOf f.TypeName = 0 then 0
           else AlignmentOf f.TypeName - st.Size % AlignmentOf f.TypeName) +
          f.Size) ∧
    (structC3.Expand regEmpty 1).Fields.map (fun f => f.Offset) = [0, 4, 8, 10] :=
  ⟨fun _ _ _ => ⟨rfl, rfl⟩, by decide⟩

/-- C4 counterexample: a non-constant uint8 field populated from JSON with
300 does not survive the byte round trip — it comes back as 44, so
`FromBytes(ToBytes(s)) == s` fails as stated. -/
theorem roundtrip_claim_false :
    esB.Fields.map (fun f => (f.FieldDefinition.IsConstant, f.Value)) = [(false, 300)] ∧
    (esB.PopulateFromBytes esB.ByteArray).Fields.map (fun f => f.Value) = [44] := by
  decide

/-- C4 (amended): for an expanded structure whose fields are disjoint in
increasing offset order and end within the structure size (the layout
expansion produces), with catalog-consistent type names and sizes, and
every non-constant value within its field's width, `PopulateFromBytes`
after `ByteArray` restores the value of every non-constant field. -/
theorem populateFromBytes_roundtrip (s : ExpandedStructure)
    (hdisj : List.Pairwise (fun a b => a.Offset + a.Size ≤ b.Offset) s.Fields)
    (hbound : ∀ f ∈ s.Fields, f.Offset + f.Size ≤ s.Size)
    (hty : ∀ f ∈ s.Fields, TypeSizeOk f)
    (hfit : ∀ f ∈ s.Fields, f.FieldDefinition.IsConstant = false →
      f.Value < 2 ^ (8 * f.Size)) :
    ∀ (i : Nat) (h1 : i < s.Fields.length)
      (h2 : i < (s.PopulateFromBytes s.ByteArray).Fields.length),
      (s.Fields[i]).FieldDefinition.IsConstant = false →
      ((s.PopulateFromBytes s.ByteArray).Fields[i]).Value = (s.Fields[i]).Value := by
  intro i h1 h2 hc
  simp only [ExpandedStructure.PopulateFromBytes, List.getElem_map]
  show getValueForField s.Fields[i] s.ByteArray = (s.Fields[i]).Value
  unfold ExpandedStructure.ByteArray
  rw [readAll_writeFold s.Fields (List.replicate s.Size 0) hdisj
    (fun f hf => by simpa using hbound f hf) hty _ (List.getElem_mem h1) hc]
  exact Nat.mod_eq_of_lt (hfit _ (List.getElem_mem h1) hc)

/-- C4 witness: the populated `{status: 1, value: 300}` structure
round-trips its non-constant uint16 field. -/
theorem populateFromBytes_roundtrip_witness :
    (∀ f ∈ esC2p.Fields, TypeSizeOk f) ∧
    ((esC2p.PopulateFromBytes esC2p.ByteArray).Fields.get ⟨1, by decide⟩).Value =
      (esC2p.Fields.get ⟨1, by decide⟩).Value :=
  ⟨by decide,
   populateFromBytes_roundtrip esC2p (by decide) (by decide) (by decide)
     (by decide) 1 (by decide) (by decide) (by decide)⟩

/-- C5: offsets of an expanded structure's fields are strictly increasing
in list order, and its total size is the offset plus size of its last
field (0 with no fields); the hypotheses record that every atomic field of
the declared structure and of every registry-resolvable structure has a
positive element size, as declaration building guarantees. -/
theorem expand_offsets_strictly_increasing (reg : Registry) (fuel : Nat)
    (s : DeviceStructure) (hs : AtomicSizesPositive s)
    (hreg : RegistrySizesPositive reg) :
    List.Pairwise (fun a b => a.Offset < b.Offset) (s.Expand reg fuel).Fields ∧
    (s.Expand reg fuel).Size =
      ((s.Expand reg fuel).Fields.getLast?).elim 0 (fun f => f.Offset + f.Size) := by
  have h := addExpandedFields_layoutInv reg hreg fuel s.Fields
    { Name := s.Name, Fields := [], Size := 0 } ""
    ⟨List.Pairwise.nil, fun f hf => absurd hf (List.not_mem_nil f), rfl⟩ hs
  exact ⟨h.1, h.2.2⟩

/-- C5 witness: the 1,4,2,1 structure expands to strictly increasing
offsets with total size 11 = 10 + 1. -/
theorem expand_offsets_strictly_increasing_witness :
    AtomicSizesPositive structC3 ∧
    (List.Pairwise (fun a b => a.Offset < b.Offset) (structC3.Expand regEmpty 1).Fields ∧
     (structC3.Expand regEmpty 1).Size =
       ((structC3.Expand regEmpty 1).Fields.getLast?).elim 0
         (fun f => f.Offset + f.Size)) :=
  ⟨by decide,
   expand_offsets_strictly_increasing regEmpty 1 structC3 (by decide)
     (fun _ _ h => Option.noConfusion h)⟩

/-- C6 counterexample: the first field's deferred expression needs the
second field's name bound; the code's validation fails because at that
point the environment binds only the fields up to the current one, while
the pass the claim describes — every field name bound up front — would
succeed. -/
theorem validate_env_claim_false :
    (esC6.Validate 8).1 = false ∧ (esC6.ValidateAllBound 8).1 = true := by
  decide

/-- C6 (amended): the environment in which each field is validated is a
fresh scope per validation pass binding exactly the field names up to and
including the field being validated, in declaration order (not every field
name of the owning structure). -/
theorem validate_prefix_environments (fuel : Nat) (self : ExpandedStructure) :
    self.Validate fuel =
      ((validateFieldsPrefixEnvs fuel [] self.Fields).1,
       { self with Fields := (validateFieldsPrefixEnvs fuel [] self.Fields).2.1 },
       (validateFieldsPrefixEnvs fuel [] self.Fields).2.2) := by
  unfold ExpandedStructure.Validate
  rw [show ([] : Env) = bindFields [] [] from rfl, validateFieldsLoop_prefixEnvs]

/-- C7 counterexample: validating `efDeferred` (deferred rule attaching
`Range{2,4}`, value 3) succeeds and clears the range and value-set rules,
but a second validation of the resulting field evaluates the deferred
expression again — one evaluation, where the claim demands none. -/
theorem deferred_second_validation_reinvokes :
    (efDeferred.Validate 8 []).1 = true ∧
    (efDeferred.Validate 8 []).2.1.FieldDefinition.ValidRange = none ∧
    (efDeferred.Validate 8 []).2.1.FieldDefinition.ValidValues = none ∧
    ((efDeferred.Validate 8 []).2.1.Validate 8 []).2.2 = 1 ∧
    ((efDeferred.Validate 8 []).2.1.Validate 8 []).1 = true := by
  decide

/-- C7 (amended): for a field whose definition carries only a deferred rule
whose expression attaches a range satisfied by the current value, the
validation succeeds with one expression evaluation and clears the range and
value-set rules back to absent; the deferred expression itself stays
attached, so a second validation of the field evaluates the expression
again (one evaluation, succeeding the same way), rather than succeeding
under the no-rule case. -/
theorem deferred_rule_clears_rules_not_code (fuel : Nat)
    (ef : ExpandedField) (code : DeferredCode) (r : Range) (env : Env)
    (hconst : ef.FieldDefinition.IsConstant = false)
    (hr : ef.FieldDefinition.ValidRange = none)
    (hv : ef.FieldDefinition.ValidValues = none)
    (hd : ef.FieldDefinition.DeferredValidationCode = some code)
    (heval : code env = some (some r, none))
    (hpass : r.Validate ef.Value = true) :
    (ef.Validate (fuel + 1) env).1 = true ∧
    (ef.Validate (fuel + 1) env).2.1.FieldDefinition.ValidRange = none ∧
    (ef.Validate (fuel + 1) env).2.1.FieldDefinition.ValidValues = none ∧
    (ef.Validate (fuel + 1) env).2.1.FieldDefinition.DeferredValidationCode = some code ∧
    (ef.Validate (fuel + 1) env).2.2 = 1 ∧
    ((ef.Validate (fuel + 1) env).2.1.Validate (fuel + 1) env).1 = true ∧
    ((ef.Validate (fuel + 1) env).2.1.Validate (fuel + 1) env).2.2 = 1 := by
  have h1 := validate_deferred_step fuel ef code r env hconst hr hv hd heval
  rw [h1]
  have h2 := validate_deferred_step fuel
    { ef with FieldDefinition :=
        { ef.FieldDefinition with ValidRange := none, ValidValues := none } }
    code r env hconst rfl rfl hd heval
  rw [h2]
  exact ⟨hpass, rfl, rfl, hd, rfl, hpass, rfl⟩

/-- C7 witness: the scenario instantiated — `Range{2,4}` attached by the
expression while the field is valued 3. -/
theorem deferred_rule_witness :
    Range.Validate ⟨2, 4⟩ efDeferred.Value = true ∧
    ((efDeferred.Validate (7 + 1) []).1 = true ∧
     (efDeferred.Validate (7 + 1) []).2.1.FieldDefinition.ValidRange = none ∧
     (efDeferred.Validate (7 + 1) []).2.1.FieldDefinition.ValidValues = none ∧
     (efDeferred.Validate (7 + 1) []).2.1.FieldDefinition.DeferredValidationCode =
       some (fun _ => some (some ⟨2, 4⟩, none)) ∧
     (efDeferred.Validate (7 + 1) []).2.2 = 1 ∧
     ((efDeferred.Validate (7 + 1) []).2.1.Validate (7 + 1) []).1 = true ∧
     ((efDeferred.Validate (7 + 1) []).2.1.Validate (7 + 1) []).2.2 = 1) :=
  ⟨by decide,
   deferred_rule_clears_rules_not_code 7 efDeferred
     (fun _ => some (some ⟨2, 4⟩, none)) ⟨2, 4⟩ [] rfl rfl rfl rfl rfl (by decide)⟩

/-- C8: a constant field's value is never taken from external input —
population from JSON leaves it untouched for any document, and population
from bytes reads it as the declared constant for any buffer (so whenever
the value was the declared constant before either call, it still is
afterwards). -/
theorem constant_field_never_from_input (f : ExpandedField) (doc : LData)
    (bytes : List Nat) (hc : f.FieldDefinition.IsConstant = true) :
    (f.extractValueFromJson doc).Value = f.Value ∧
    getValueForField f bytes = f.FieldDefinition.Constant := by
  constructor
  · unfold ExpandedField.extractValueFromJson extractValueFromJsonSteps
    rw [hc]
    rfl
  · unfold getValueForField
    rw [hc]
    rfl

/-- C8 witness: the constant field `magic = 0x55` keeps its value against a
document naming its key and a buffer holding a different byte. -/
theorem constant_field_witness :
    efConst.FieldDefinition.IsConstant = true ∧
    ((efConst.extractValueFromJson (.alist [("magic", .num 99)])).Value = efConst.Value ∧
     getValueForField efConst [9] = efConst.FieldDefinition.Constant) :=
  ⟨rfl, constant_field_never_from_input efConst (.alist [("magic", .num 99)]) [9] rfl⟩

/-- C9: a field whose path hits a hash key absent from the document is
skipped without error and keeps its value (its zero default when never
populated); population is total and never fails on missing keys. -/
theorem populateFromJson_missing_key (es : ExpandedStructure) (doc : LData)
    (i : Nat) (h1 : i < es.Fields.length)
    (h2 : i < (es.PopulateFromJson doc).Fields.length)
    (hc : (es.Fields[i]).FieldDefinition.IsConstant = false)
    (htr : (es.Fields[i]).FieldDefinition.FromJsonTransform = none)
    (hmiss : missesKey doc (stepsFromPath (es.Fields[i]).Path) = true) :
    ((es.PopulateFromJson doc).Fields[i]).Value = (es.Fields[i]).Value := by
  simp only [ExpandedStructure.PopulateFromJson, List.getElem_map]
  show ((es.Fields[i]).extractValueFromJson doc).Value = (es.Fields[i]).Value
  unfold ExpandedField.extractValueFromJson
  exact extract_missing_key_keeps_value _ _ _ _ _ hc htr hmiss

/-- C9 witness: a document without the `status` key leaves the expanded
field's zero default in place. -/
theorem populateFromJson_missing_key_witness :
    missesKey docMiss (stepsFromPath (esC2.Fields.get ⟨0, by decide⟩).Path) = true ∧
    ((esC2.PopulateFromJson docMiss).Fields.get ⟨0, by decide⟩).Value =
      (esC2.Fields.get ⟨0, by decide⟩).Value :=
  ⟨by decide,
   populateFromJson_missing_key esC2 docMiss 0 (by decide) (by decide)
     (by decide) rfl (by decide)⟩

/-- C10: serializing a non-constant field of width `s` bytes writes
`value mod 2^(8*s)`; reading it back yields that remainder, so out-of-width
values are silently truncated and no error is raised. -/
theorem serialization_truncates_wide_values (f : ExpandedField)
    (bytes : List Nat) (hc : f.FieldDefinition.IsConstant = false)
    (hty : TypeSizeOk f) (hlen : f.Offset + f.Size ≤ bytes.length) :
    getValueForField f (AddFieldToByteArray f bytes) = f.Value % 2 ^ (8 * f.Size) :=
  getValueForField_write_self f bytes hc hty hlen

/-- C10 witness: a uint8 field holding 300 serializes and reads back as
`300 mod 256 = 44`. -/
theorem serialization_truncates_witness :
    TypeSizeOk efWide ∧
    (getValueForField efWide (AddFieldToByteArray efWide [0]) =
       efWide.Value % 2 ^ (8 * efWide.Size) ∧
     efWide.Value % 2 ^ (8 * efWide.Size) = 44) :=
  ⟨by decide,
   serialization_truncates_wide_values efWide [0] rfl (by decide) (by decide),
   by decide⟩

end GolispDevice
